import Mathlib

/-!
Verification of the queue-simulation program in `FilaSimples.py`.

The program is embedded shallowly:
* Python machine floats are modelled as rationals (`ℚ`); all arithmetic the
  program performs on times and variates is field arithmetic, so the model is
  exact where the program uses floating point.
* Python integers are modelled as `ℤ` (with `%` being `Int.emod`, which agrees
  with Python's `%` for a positive modulus).
* The mutable global generator state is passed explicitly: the Python
  `next_random`, which raises before touching any global on an exhausted
  budget, becomes a function returning the drawn variate as an `Option`
  together with the (possibly unchanged) generator state.
* The `heapq` event heap is modelled as the list of pending events in
  insertion order.  `heapq.heappush` appends; `heapq.heappop` removes the
  minimum under Python's tuple order on `(time, kind)`, where the kind
  strings compare as "arrival" < "departure".  Events with equal key are
  identical values, so selecting the first minimal element is observationally
  the same as what the binary heap returns.
* The `while` loop of `simulate_queue` is run on explicit fuel; the fuel
  `2 * num_randoms + 1` is proved sufficient below (the loop halts only by
  its own guard or by a failed draw, never by fuel running out).
-/

namespace FilaSimples

/-- LCG multiplier from the source: `a = 1664525`. -/
def a : ℤ := 1664525

/-- LCG increment from the source: `c = 1013904223`. -/
def c : ℤ := 1013904223

/-- LCG modulus from the source: `M = 2**32`. -/
def M : ℤ := 2 ^ 32

/-- State of the pseudo-random generator: the globals `previous` and
`random_count` of the source. -/
structure GenState where
  previous : ℤ
  random_count : ℤ
deriving DecidableEq

/-- Source `reset_random(seed, count)`: set `previous = seed` and
`random_count = count`. -/
def reset_random (seed count : ℤ) : GenState :=
  ⟨seed, count⟩

/-- Source `next_random()`.  If `random_count <= 0` the Python code raises
before mutating any global, which is rendered as returning `none` together
with the unchanged state.  Otherwise it decrements the counter, advances the
LCG state and returns `previous / M`. -/
def next_random (g : GenState) : Option ℚ × GenState :=
  if g.random_count ≤ 0 then (none, g)
  else
    (some ((((a * g.previous + c) % M : ℤ) : ℚ) / (M : ℚ)),
      ⟨(a * g.previous + c) % M, g.random_count - 1⟩)

/-- The variate produced by one successful draw from state `g`. -/
def draw1 (g : GenState) : ℚ :=
  (((a * g.previous + c) % M : ℤ) : ℚ) / (M : ℚ)

/-- The generator state after one successful draw from state `g`. -/
def gnext (g : GenState) : GenState :=
  ⟨(a * g.previous + c) % M, g.random_count - 1⟩

lemma next_random_of_pos (g : GenState) (h : 0 < g.random_count) :
    next_random g = (some (draw1 g), gnext g) := by
  unfold next_random draw1 gnext
  rw [if_neg (by omega)]

lemma next_random_of_nonpos (g : GenState) (h : g.random_count ≤ 0) :
    next_random g = (none, g) := by
  unfold next_random
  rw [if_pos h]

lemma M_pos : (0 : ℤ) < M := by norm_num [M]

lemma draw1_nonneg (g : GenState) : 0 ≤ draw1 g := by
  unfold draw1
  apply div_nonneg
  · exact_mod_cast Int.emod_nonneg _ (by norm_num [M])
  · exact_mod_cast le_of_lt M_pos

lemma draw1_lt_one (g : GenState) : draw1 g < 1 := by
  unfold draw1
  rw [div_lt_one (by exact_mod_cast M_pos)]
  exact_mod_cast Int.emod_lt_of_pos _ M_pos

lemma gnext_count (g : GenState) : (gnext g).random_count = g.random_count - 1 := rfl

/-- Iterate `k` successive draws, failing if any one of them fails. -/
def iterDraw : ℕ → GenState → Option GenState
  | 0, g => some g
  | k + 1, g =>
    match next_random g with
    | (none, _) => none
    | (some _, g') => iterDraw k g'

lemma iterDraw_of_le :
    ∀ (k : ℕ) (g : GenState), (k : ℤ) ≤ g.random_count →
      ∃ g', iterDraw k g = some g' ∧ g'.random_count = g.random_count - k := by
  intro k
  induction k with
  | zero =>
    intro g _
    exact ⟨g, rfl, by simp⟩
  | succ k ih =>
    intro g hg
    have hpos : 0 < g.random_count := by push_cast at hg; omega
    obtain ⟨g', h1, h2⟩ := ih (gnext g) (by rw [gnext_count]; push_cast at hg ⊢; omega)
    refine ⟨g', ?_, ?_⟩
    · unfold iterDraw
      rw [next_random_of_pos g hpos]
      exact h1
    · rw [h2, gnext_count]; push_cast; ring

/-- Kind of an event: the strings "arrival" and "departure" of the source. -/
inductive EventKind
  | arrival
  | departure
deriving DecidableEq

/-- Index realizing Python's string order: "arrival" < "departure". -/
def EventKind.idx : EventKind → ℕ
  | .arrival => 0
  | .departure => 1

/-- An event of the simulation: the tuple `(tempo, tipo)` of the source. -/
structure Event where
  time : ℚ
  kind : EventKind
deriving DecidableEq

/-- Python's tuple order on events `(time, kind)`: compare times first, then
the kind strings, where "arrival" < "departure". -/
def eventLe (e f : Event) : Prop :=
  e.time < f.time ∨ (e.time = f.time ∧ e.kind.idx ≤ f.kind.idx)

instance (e f : Event) : Decidable (eventLe e f) := by
  unfold eventLe
  exact inferInstance

lemma eventLe_refl (e : Event) : eventLe e e := Or.inr ⟨rfl, le_refl _⟩

lemma eventLe_total (e f : Event) : eventLe e f ∨ eventLe f e := by
  unfold eventLe
  rcases lt_trichotomy e.time f.time with h | h | h
  · exact Or.inl (Or.inl h)
  · rcases le_total e.kind.idx f.kind.idx with h' | h'
    · exact Or.inl (Or.inr ⟨h, h'⟩)
    · exact Or.inr (Or.inr ⟨h.symm, h'⟩)
  · exact Or.inr (Or.inl h)

lemma eventLe_trans {e f g : Event} (h1 : eventLe e f) (h2 : eventLe f g) :
    eventLe e g := by
  unfold eventLe at *
  rcases h1 with h1 | ⟨h1, h1'⟩ <;> rcases h2 with h2 | ⟨h2, h2'⟩
  · exact Or.inl (h1.trans h2)
  · exact Or.inl (h2 ▸ h1)
  · exact Or.inl (h1 ▸ h2)
  · exact Or.inr ⟨h1.trans h2, h1'.trans h2'⟩

lemma eventLe_time {e f : Event} (h : eventLe e f) : e.time ≤ f.time := by
  rcases h with h | ⟨h, _⟩
  · exact le_of_lt h
  · exact le_of_eq h

/-- Model of `heapq.heappush`: record the event as pending (the heap is kept
as the list of pending events in insertion order). -/
def heappush (l : List Event) (e : Event) : List Event :=
  l ++ [e]

/-- Model of `heapq.heappop`: remove and return the minimal pending event
under Python's tuple order `eventLe`, together with the remaining events;
`none` on an empty heap. -/
def heappop : List Event → Option (Event × List Event)
  | [] => none
  | e :: es =>
    match heappop es with
    | none => some (e, [])
    | some (m, rest) => if eventLe e m then some (e, es) else some (m, e :: rest)

lemma heappop_eq_none : ∀ l : List Event, heappop l = none ↔ l = [] := by
  intro l
  cases l with
  | nil => simp [heappop]
  | cons e es =>
    simp only [heappop]
    constructor
    · intro h
      cases h' : heappop es with
      | none => rw [h'] at h; simp at h
      | some p => rw [h'] at h; obtain ⟨m, rest⟩ := p; simp at h; split at h <;> simp_all
    · intro h; simp at h

lemma heappop_cons_none {x : Event} {xs : List Event} (h : heappop xs = none) :
    heappop (x :: xs) = some (x, []) := by
  simp only [heappop, h]

lemma heappop_cons_some {x m : Event} {xs mrest : List Event}
    (h : heappop xs = some (m, mrest)) :
    heappop (x :: xs) =
      if eventLe x m then some (x, xs) else some (m, x :: mrest) := by
  simp only [heappop, h]

lemma heappop_perm :
    ∀ (l : List Event) (e : Event) (rest : List Event),
      heappop l = some (e, rest) → l.Perm (e :: rest) := by
  intro l
  induction l with
  | nil => intro e rest h; simp [heappop] at h
  | cons x xs ih =>
    intro e rest h
    cases h' : heappop xs with
    | none =>
      rw [heappop_cons_none h'] at h
      obtain ⟨rfl, rfl⟩ : x = e ∧ ([] : List Event) = rest := by simpa using h
      rw [(heappop_eq_none xs).mp h']
    | some p =>
      obtain ⟨m, mrest⟩ := p
      rw [heappop_cons_some h'] at h
      by_cases hle : eventLe x m
      · rw [if_pos hle] at h
        obtain ⟨rfl, rfl⟩ : x = e ∧ xs = rest := by simpa using h
        exact List.Perm.refl _
      · rw [if_neg hle] at h
        obtain ⟨rfl, rfl⟩ : m = e ∧ x :: mrest = rest := by simpa using h
        exact ((ih m mrest h').cons x).trans (List.Perm.swap m x mrest)

lemma heappop_min :
    ∀ (l : List Event) (e : Event) (rest : List Event),
      heappop l = some (e, rest) → ∀ x ∈ l, eventLe e x := by
  intro l
  induction l with
  | nil => intro e rest h; simp [heappop] at h
  | cons y ys ih =>
    intro e rest h x hx
    cases h' : heappop ys with
    | none =>
      rw [heappop_cons_none h'] at h
      obtain ⟨rfl, rfl⟩ : y = e ∧ ([] : List Event) = rest := by simpa using h
      have hys : ys = [] := (heappop_eq_none ys).mp h'
      subst hys
      rcases List.mem_cons.mp hx with rfl | hmem
      · exact eventLe_refl _
      · simp at hmem
    | some p =>
      obtain ⟨m, mrest⟩ := p
      rw [heappop_cons_some h'] at h
      by_cases hle : eventLe y m
      · rw [if_pos hle] at h
        obtain ⟨rfl, rfl⟩ : y = e ∧ ys = rest := by simpa using h
        rcases List.mem_cons.mp hx with rfl | hmem
        · exact eventLe_refl _
        · exact eventLe_trans hle (ih m mrest h' x hmem)
      · rw [if_neg hle] at h
        obtain ⟨rfl, rfl⟩ : m = e ∧ y :: mrest = rest := by simpa using h
        rcases List.mem_cons.mp hx with hxy | hmem
        · subst hxy
          rcases eventLe_total x m with hh | hh
          · exact absurd hh hle
          · exact hh
        · exact ih m mrest h' x hmem

lemma heappop_mem {l : List Event} {e : Event} {rest : List Event}
    (h : heappop l = some (e, rest)) : e ∈ l :=
  (heappop_perm l e rest h).mem_iff.mpr (List.mem_cons_self e rest)

lemma heappop_length {l : List Event} {e : Event} {rest : List Event}
    (h : heappop l = some (e, rest)) : l.length = rest.length + 1 := by
  have := (heappop_perm l e rest h).length_eq
  simpa using this

/-- Number of pending departure events in a heap. -/
def countDep (l : List Event) : ℕ :=
  l.countP (fun e => e.kind == .departure)

lemma countDep_append (l₁ l₂ : List Event) :
    countDep (l₁ ++ l₂) = countDep l₁ + countDep l₂ :=
  List.countP_append _ _ _

lemma countDep_heappop {l : List Event} {e : Event} {rest : List Event}
    (h : heappop l = some (e, rest)) :
    countDep l = countDep rest + (if e.kind = .departure then 1 else 0) := by
  have hp := (heappop_perm l e rest h).countP_eq (fun e => e.kind == .departure)
  unfold countDep
  rw [hp, List.countP_cons]
  by_cases hd : e.kind = .departure <;> simp [hd]

/-- The parameters of `simulate_queue`, in source order.  `capacity` is a
natural number because the source builds the list `time_in_state` of length
`capacity + 1`. -/
structure Params where
  servers : ℤ
  capacity : ℕ
  first_arrival : ℚ
  min_arrival : ℚ
  max_arrival : ℚ
  min_service : ℚ
  max_service : ℚ
  num_randoms : ℤ
  seed : ℤ
deriving DecidableEq

/-- The mutable locals of `simulate_queue` during the event loop.  The dwell
times `time_in_state` are kept as a total map `ℤ → ℚ`; the occupancy `state`
stays within `0 .. capacity` (proved below), where the map agrees with the
source's list of length `capacity + 1`. -/
structure SimState where
  gen : GenState
  current_time : ℚ
  state : ℤ
  losses : ℤ
  time_in_state : ℤ → ℚ
  event_list : List Event

/-- Outcome of processing one event: either the loop continues, or a failed
draw hit a `break` and the loop halts with the mutations made so far. -/
inductive StepRes
  | cont (s : SimState)
  | halt (s : SimState)

/-- The state carried by a step outcome. -/
def stepSt : StepRes → SimState
  | .cont s => s
  | .halt s => s

@[simp] lemma stepSt_cont (s : SimState) : stepSt (.cont s) = s := rfl

@[simp] lemma stepSt_halt (s : SimState) : stepSt (.halt s) = s := rfl

/-- Accrue the dwell time of the current state up to time `t` and advance the
clock: `time_in_state[state] += t - current_time; current_time = t`. -/
def accrue (s : SimState) (t : ℚ) : SimState :=
  { s with
    time_in_state := fun j =>
      if j = s.state then s.time_in_state j + (t - s.current_time)
      else s.time_in_state j
    current_time := t }

/-- Replace the generator state. -/
def setGen (s : SimState) (g : GenState) : SimState :=
  { s with gen := g }

/-- Push an event on the pending heap. -/
def pushEvent (s : SimState) (e : Event) : SimState :=
  { s with event_list := heappush s.event_list e }

/-- A service duration derived from variate `x`:
`min_service + (max_service - min_service) * x`. -/
def serviceTime (P : Params) (x : ℚ) : ℚ :=
  P.min_service + (P.max_service - P.min_service) * x

/-- An interarrival duration derived from variate `x`:
`min_arrival + (max_arrival - min_arrival) * x`. -/
def interarrival (P : Params) (x : ℚ) : ℚ :=
  P.min_arrival + (P.max_arrival - P.min_arrival) * x

/-- Tail of the arrival branch: draw an interarrival variate and schedule the
next arrival at `current_time + interarrival`; a failed draw is the source's
`except: break`. -/
def scheduleArrival (P : Params) (s : SimState) : StepRes :=
  match next_random s.gen with
  | (none, g) => .halt (setGen s g)
  | (some x, g) =>
    .cont (pushEvent (setGen s g) ⟨s.current_time + interarrival P x, .arrival⟩)

/-- Arrival branch of the source: if there is room accept the customer and,
if a server is free, draw a service variate and schedule its departure
(breaking on a failed draw); otherwise count a loss.  Then schedule the next
arrival. -/
def handleArrival (P : Params) (s : SimState) : StepRes :=
  if s.state < (P.capacity : ℤ) then
    let s1 := { s with state := s.state + 1 }
    if s1.state ≤ P.servers then
      match next_random s1.gen with
      | (none, g) => .halt (setGen s1 g)
      | (some x, g) =>
        scheduleArrival P
          (pushEvent (setGen s1 g) ⟨s1.current_time + serviceTime P x, .departure⟩)
    else
      scheduleArrival P s1
  else
    scheduleArrival P { s with losses := s.losses + 1 }

/-- Departure branch of the source: the customer leaves; if a queued customer
is waiting for the freed server (`state >= servers` after the decrement),
draw a service variate and schedule its departure (breaking on a failed
draw). -/
def handleDeparture (P : Params) (s : SimState) : StepRes :=
  let s1 := { s with state := s.state - 1 }
  if P.servers ≤ s1.state then
    match next_random s1.gen with
    | (none, g) => .halt (setGen s1 g)
    | (some x, g) =>
      .cont (pushEvent (setGen s1 g) ⟨s1.current_time + serviceTime P x, .departure⟩)
  else
    .cont s1

/-- One iteration of the source's event loop: pop the earliest event, accrue
the dwell time of the pre-event state, advance the clock, then dispatch on
the event kind. -/
def step (P : Params) (s : SimState) : StepRes :=
  match heappop s.event_list with
  | none => .halt s
  | some (e, rest) =>
    let s0 := accrue { s with event_list := rest } e.time
    match e.kind with
    | .arrival => handleArrival P s0
    | .departure => handleDeparture P s0

/-- The source's `while event_list and random_count > 0` loop, run on fuel.
Besides the final state it returns the number of events processed.  The fuel
`fuelFor` below is proved sufficient: the loop always stops by its own guard
or by a `break`, never by fuel exhaustion. -/
def loop (P : Params) : ℕ → SimState → SimState × ℕ
  | 0, s => (s, 0)
  | fuel + 1, s =>
    if s.event_list = [] ∨ s.gen.random_count ≤ 0 then (s, 0)
    else
      match step P s with
      | .halt s' => (s', 1)
      | .cont s' =>
        let r := loop P fuel s'
        (r.1, r.2 + 1)

/-- Fuel sufficient for a run with budget `num_randoms` (proved below). -/
def fuelFor (P : Params) : ℕ :=
  2 * P.num_randoms.toNat + 1

/-- The state of `simulate_queue` just before the event loop: generator reset
with `(seed, num_randoms)`, clock, occupancy, losses and dwell times zero,
and one arrival scheduled at `first_arrival`. -/
def initState (P : Params) : SimState :=
  { gen := reset_random P.seed P.num_randoms
    current_time := 0
    state := 0
    losses := 0
    time_in_state := fun _ => 0
    event_list := heappush [] ⟨P.first_arrival, .arrival⟩ }

/-- The simulation state when the event loop of `simulate_queue P` exits. -/
def finalState (P : Params) : SimState :=
  (loop P (fuelFor P) (initState P)).1

/-- The number of events processed by the event loop of `simulate_queue P`. -/
def eventsProcessed (P : Params) : ℕ :=
  (loop P (fuelFor P) (initState P)).2

/-- The result dictionary returned by `simulate_queue`. -/
structure SimResult where
  simulation_time : ℚ
  time_in_state : List ℚ
  probabilities : List ℚ
  losses : ℤ
  avg_population : ℚ
  servers : ℤ
  capacity : ℕ
  min_arrival : ℚ
  max_arrival : ℚ
  min_service : ℚ
  max_service : ℚ
deriving DecidableEq

/-- The probabilities computed by the source:
`(t / simulation_time * 100) if simulation_time > 0 else 0` per entry. -/
def probabilities_of (tis : List ℚ) (simulation_time : ℚ) : List ℚ :=
  tis.map (fun t => if 0 < simulation_time then t / simulation_time * 100 else 0)

/-- The mean population computed by the source:
`sum(i * (time_in_state[i] / simulation_time) for i in range(len(time_in_state)))`
when `simulation_time > 0`, else `0`. -/
def avg_population_of (tis : List ℚ) (simulation_time : ℚ) : ℚ :=
  if 0 < simulation_time then
    ((List.range tis.length).map
      (fun (i : ℕ) => (i : ℚ) * (tis.getD i 0 / simulation_time))).sum
  else 0

/-- Source `simulate_queue`: reset the generator, run the event loop, then
aggregate the results. -/
def simulate_queue (P : Params) : SimResult :=
  let fin := finalState P
  let simulation_time := fin.current_time
  let tis := (List.range (P.capacity + 1)).map (fun (i : ℕ) => fin.time_in_state (i : ℤ))
  { simulation_time := simulation_time
    time_in_state := tis
    probabilities := probabilities_of tis simulation_time
    losses := fin.losses
    avg_population := avg_population_of tis simulation_time
    servers := P.servers
    capacity := P.capacity
    min_arrival := P.min_arrival
    max_arrival := P.max_arrival
    min_service := P.min_service
    max_service := P.max_service }

/-- The dwell-time map after accruing the interval up to time `t`. -/
def tisAcc (s : SimState) (t : ℚ) : ℤ → ℚ :=
  fun j =>
    if j = s.state then s.time_in_state j + (t - s.current_time)
    else s.time_in_state j

/-- Exhaustive description of one loop iteration under the loop guard
(`random_count > 0` and a nonempty heap): the six reachable branches of
`step`, each with the successor state written out. -/
lemma step_cases (P : Params) (s : SimState) (e : Event) (rest : List Event)
    (hpop : heappop s.event_list = some (e, rest))
    (hrc : 0 < s.gen.random_count) :
    (e.kind = .arrival ∧ s.state < (P.capacity : ℤ) ∧ s.state + 1 ≤ P.servers ∧
      s.gen.random_count ≤ 1 ∧
      step P s = .halt
        { gen := gnext s.gen
          current_time := e.time
          state := s.state + 1
          losses := s.losses
          time_in_state := tisAcc s e.time
          event_list :=
            heappush rest ⟨e.time + serviceTime P (draw1 s.gen), .departure⟩ }) ∨
    (e.kind = .arrival ∧ s.state < (P.capacity : ℤ) ∧ s.state + 1 ≤ P.servers ∧
      2 ≤ s.gen.random_count ∧
      step P s = .cont
        { gen := gnext (gnext s.gen)
          current_time := e.time
          state := s.state + 1
          losses := s.losses
          time_in_state := tisAcc s e.time
          event_list :=
            heappush
              (heappush rest ⟨e.time + serviceTime P (draw1 s.gen), .departure⟩)
              ⟨e.time + interarrival P (draw1 (gnext s.gen)), .arrival⟩ }) ∨
    (e.kind = .arrival ∧ s.state < (P.capacity : ℤ) ∧ P.servers < s.state + 1 ∧
      step P s = .cont
        { gen := gnext s.gen
          current_time := e.time
          state := s.state + 1
          losses := s.losses
          time_in_state := tisAcc s e.time
          event_list :=
            heappush rest ⟨e.time + interarrival P (draw1 s.gen), .arrival⟩ }) ∨
    (e.kind = .arrival ∧ (P.capacity : ℤ) ≤ s.state ∧
      step P s = .cont
        { gen := gnext s.gen
          current_time := e.time
          state := s.state
          losses := s.losses + 1
          time_in_state := tisAcc s e.time
          event_list :=
            heappush rest ⟨e.time + interarrival P (draw1 s.gen), .arrival⟩ }) ∨
    (e.kind = .departure ∧ P.servers ≤ s.state - 1 ∧
      step P s = .cont
        { gen := gnext s.gen
          current_time := e.time
          state := s.state - 1
          losses := s.losses
          time_in_state := tisAcc s e.time
          event_list :=
            heappush rest ⟨e.time + serviceTime P (draw1 s.gen), .departure⟩ }) ∨
    (e.kind = .departure ∧ s.state - 1 < P.servers ∧
      step P s = .cont
        { gen := s.gen
          current_time := e.time
          state := s.state - 1
          losses := s.losses
          time_in_state := tisAcc s e.time
          event_list := rest }) := by
  obtain ⟨te, ke⟩ := e
  cases ke with
  | arrival =>
    have hstep : step P s =
        handleArrival P (accrue { s with event_list := rest } te) := by
      unfold step
      rw [hpop]
    by_cases hc : s.state < (P.capacity : ℤ)
    · by_cases hs : s.state + 1 ≤ P.servers
      · by_cases h1 : s.gen.random_count ≤ 1
        · left
          refine ⟨rfl, hc, hs, h1, ?_⟩
          rw [hstep]
          unfold handleArrival
          simp only [accrue]
          rw [if_pos hc, if_pos hs, next_random_of_pos s.gen hrc]
          unfold scheduleArrival
          simp only [pushEvent, setGen]
          rw [next_random_of_nonpos (gnext s.gen) (by rw [gnext_count]; omega)]
          rfl
        · right; left
          refine ⟨rfl, hc, hs, by omega, ?_⟩
          rw [hstep]
          unfold handleArrival
          simp only [accrue]
          rw [if_pos hc, if_pos hs, next_random_of_pos s.gen hrc]
          unfold scheduleArrival
          simp only [pushEvent, setGen]
          rw [next_random_of_pos (gnext s.gen) (by rw [gnext_count]; omega)]
          rfl
      · right; right; left
        refine ⟨rfl, hc, by omega, ?_⟩
        rw [hstep]
        unfold handleArrival
        simp only [accrue]
        rw [if_pos hc, if_neg hs]
        unfold scheduleArrival
        simp only [setGen]
        rw [next_random_of_pos s.gen hrc]
        rfl
    · right; right; right; left
      refine ⟨rfl, by omega, ?_⟩
      rw [hstep]
      unfold handleArrival
      simp only [accrue]
      rw [if_neg hc]
      unfold scheduleArrival
      simp only [setGen]
      rw [next_random_of_pos s.gen hrc]
      rfl
  | departure =>
    have hstep : step P s =
        handleDeparture P (accrue { s with event_list := rest } te) := by
      unfold step
      rw [hpop]
    by_cases hs : P.servers ≤ s.state - 1
    · right; right; right; right; left
      refine ⟨rfl, hs, ?_⟩
      rw [hstep]
      unfold handleDeparture
      simp only [accrue]
      rw [if_pos hs, next_random_of_pos s.gen hrc]
      rfl
    · right; right; right; right; right
      refine ⟨rfl, by omega, ?_⟩
      rw [hstep]
      unfold handleDeparture
      simp only [accrue]
      rw [if_neg hs]
      rfl

/-- A predicate preserved by every guarded loop iteration holds at the state
in which the loop exits. -/
lemma loop_inv (P : Params) (Pred : SimState → Prop)
    (hstep : ∀ s, Pred s → s.event_list ≠ [] → 0 < s.gen.random_count →
      Pred (stepSt (step P s))) :
    ∀ (fuel : ℕ) (s : SimState), Pred s → Pred (loop P fuel s).1 := by
  intro fuel
  induction fuel with
  | zero => intro s h; exact h
  | succ fuel ih =>
    intro s h
    unfold loop
    by_cases hg : s.event_list = [] ∨ s.gen.random_count ≤ 0
    · rw [if_pos hg]; exact h
    · rw [if_neg hg]
      push_neg at hg
      obtain ⟨hne, hrc⟩ := hg
      have hp := hstep s h hne (by omega)
      cases hst : step P s with
      | halt s' =>
        rw [hst] at hp
        exact hp
      | cont s' =>
        rw [hst] at hp
        exact ih s' hp

@[simp] lemma countDep_heappush_dep (l : List Event) (t : ℚ) :
    countDep (heappush l ⟨t, .departure⟩) = countDep l + 1 := by
  unfold countDep heappush
  rw [List.countP_append]
  simp [List.countP_cons]

@[simp] lemma countDep_heappush_arr (l : List Event) (t : ℚ) :
    countDep (heappush l ⟨t, .arrival⟩) = countDep l := by
  unfold countDep heappush
  rw [List.countP_append]
  simp [List.countP_cons]

@[simp] lemma countDep_nil : countDep [] = 0 := rfl

lemma countDep_heappop_arr {l : List Event} {e : Event} {rest : List Event}
    (h : heappop l = some (e, rest)) (hk : e.kind = .arrival) :
    countDep l = countDep rest := by
  have := countDep_heappop h
  rw [hk] at this
  simpa using this

lemma countDep_heappop_dep {l : List Event} {e : Event} {rest : List Event}
    (h : heappop l = some (e, rest)) (hk : e.kind = .departure) :
    countDep l = countDep rest + 1 := by
  have := countDep_heappop h
  rw [hk] at this
  simpa using this

/-- The occupancy invariant of the event loop: the occupancy stays between
`0` and `capacity`, and the number of pending departure events equals the
number of busy servers, `min state servers` clamped at `0`. -/
def InvD (P : Params) (s : SimState) : Prop :=
  0 ≤ s.state ∧ s.state ≤ (P.capacity : ℤ) ∧
    (countDep s.event_list : ℤ) = max 0 (min s.state P.servers)

instance (P : Params) (s : SimState) : Decidable (InvD P s) := by
  unfold InvD
  exact inferInstance

lemma InvD_step (P : Params) (s : SimState) (h : InvD P s)
    (hne : s.event_list ≠ []) (hrc : 0 < s.gen.random_count) :
    InvD P (stepSt (step P s)) := by
  obtain ⟨h0, h1, h2⟩ := h
  cases hpop : heappop s.event_list with
  | none => exact absurd ((heappop_eq_none _).mp hpop) hne
  | some p =>
    obtain ⟨e, rest⟩ := p
    rcases step_cases P s e rest hpop hrc with
      ⟨hk, hc, hs, hr1, heq⟩ | ⟨hk, hc, hs, hr2, heq⟩ | ⟨hk, hc, hs, heq⟩ |
      ⟨hk, hc, heq⟩ | ⟨hk, hs, heq⟩ | ⟨hk, hs, heq⟩
    · have hcd := countDep_heappop_arr hpop hk
      rw [heq]
      simp only [stepSt_halt, InvD, countDep_heappush_dep]
      push_cast
      omega
    · have hcd := countDep_heappop_arr hpop hk
      rw [heq]
      simp only [stepSt_cont, InvD, countDep_heappush_arr, countDep_heappush_dep]
      push_cast
      omega
    · have hcd := countDep_heappop_arr hpop hk
      rw [heq]
      simp only [stepSt_cont, InvD, countDep_heappush_arr]
      omega
    · have hcd := countDep_heappop_arr hpop hk
      rw [heq]
      simp only [stepSt_cont, InvD, countDep_heappush_arr]
      omega
    · have hcd := countDep_heappop_dep hpop hk
      rw [heq]
      simp only [stepSt_cont, InvD, countDep_heappush_dep]
      push_cast
      omega
    · have hcd := countDep_heappop_dep hpop hk
      rw [heq]
      simp only [stepSt_cont, InvD]
      omega

lemma InvD_init (P : Params) : InvD P (initState P) := by
  unfold InvD initState
  simp

lemma InvD_final (P : Params) : InvD P (finalState P) :=
  loop_inv P (InvD P) (InvD_step P) (fuelFor P) (initState P) (InvD_init P)

/-- Sum of the dwell-time entries reported for states `0 .. capacity`. -/
def sumTis (P : Params) (f : ℤ → ℚ) : ℚ :=
  ((List.range (P.capacity + 1)).map (fun (i : ℕ) => f (i : ℤ))).sum

lemma sum_range_update (n : ℕ) (f : ℤ → ℚ) (k : ℤ) (d : ℚ)
    (h0 : 0 ≤ k) (h1 : k < (n : ℤ)) :
    ((List.range n).map (fun (i : ℕ) => if (i : ℤ) = k then f (i : ℤ) + d else f (i : ℤ))).sum =
      ((List.range n).map (fun (i : ℕ) => f (i : ℤ))).sum + d := by
  induction n with
  | zero => exact absurd h1 (by omega)
  | succ n ih =>
    rw [List.range_succ]
    simp only [List.map_append, List.sum_append, List.map_cons, List.map_nil,
      List.sum_cons, List.sum_nil]
    by_cases hk : (n : ℤ) = k
    · have hpre :
          (List.range n).map (fun (i : ℕ) => if (i : ℤ) = k then f (i : ℤ) + d else f (i : ℤ)) =
            (List.range n).map (fun (i : ℕ) => f (i : ℤ)) := by
        apply List.map_congr_left
        intro i hi
        have : i < n := List.mem_range.mp hi
        rw [if_neg (by omega)]
      rw [hpre, if_pos hk]
      ring
    · rw [ih (by omega), if_neg hk]
      ring

lemma sumTis_tisAcc (P : Params) (s : SimState) (t : ℚ)
    (h0 : 0 ≤ s.state) (h1 : s.state ≤ (P.capacity : ℤ)) :
    sumTis P (tisAcc s t) = sumTis P s.time_in_state + (t - s.current_time) := by
  unfold sumTis tisAcc
  exact sum_range_update (P.capacity + 1) s.time_in_state s.state (t - s.current_time)
    h0 (by push_cast; omega)

/-- Combined loop invariant for the dwell-time bookkeeping: occupancy in
range, and the dwell times accrued so far sum exactly to the clock. -/
def GoodState (P : Params) (s : SimState) : Prop :=
  InvD P s ∧ sumTis P s.time_in_state = s.current_time

lemma GoodState_step (P : Params) (s : SimState) (h : GoodState P s)
    (hne : s.event_list ≠ []) (hrc : 0 < s.gen.random_count) :
    GoodState P (stepSt (step P s)) := by
  obtain ⟨hd, hsum⟩ := h
  refine ⟨InvD_step P s hd hne hrc, ?_⟩
  obtain ⟨h0, h1, _⟩ := hd
  cases hpop : heappop s.event_list with
  | none => exact absurd ((heappop_eq_none _).mp hpop) hne
  | some p =>
    obtain ⟨e, rest⟩ := p
    have hacc : sumTis P (tisAcc s e.time) = e.time := by
      rw [sumTis_tisAcc P s e.time h0 h1, hsum]
      ring
    rcases step_cases P s e rest hpop hrc with
      ⟨_, _, _, _, heq⟩ | ⟨_, _, _, _, heq⟩ | ⟨_, _, _, heq⟩ |
      ⟨_, _, heq⟩ | ⟨_, _, heq⟩ | ⟨_, _, heq⟩ <;>
    · rw [heq]
      exact hacc

lemma GoodState_init (P : Params) : GoodState P (initState P) := by
  refine ⟨InvD_init P, ?_⟩
  unfold sumTis initState
  simp

lemma GoodState_final (P : Params) : GoodState P (finalState P) :=
  loop_inv P (GoodState P) (GoodState_step P) (fuelFor P) (initState P)
    (GoodState_init P)

lemma losses_step (P : Params) (s : SimState) (e : Event) (rest : List Event)
    (hpop : heappop s.event_list = some (e, rest))
    (hcap : s.state ≤ (P.capacity : ℤ)) (hrc : 0 < s.gen.random_count) :
    ((stepSt (step P s)).losses = s.losses + 1 ↔
      (e.kind = .arrival ∧ s.state = (P.capacity : ℤ))) ∧
    ((stepSt (step P s)).losses = s.losses ∨
      (stepSt (step P s)).losses = s.losses + 1) ∧
    ((e.kind = .arrival ∧ s.state = (P.capacity : ℤ)) →
      (stepSt (step P s)).state = s.state) := by
  rcases step_cases P s e rest hpop hrc with
    ⟨hk, hc, hs, h1, heq⟩ | ⟨hk, hc, hs, h2, heq⟩ | ⟨hk, hc, hs, heq⟩ |
    ⟨hk, hc, heq⟩ | ⟨hk, hs, heq⟩ | ⟨hk, hs, heq⟩
  · rw [heq]
    exact ⟨⟨fun h => absurd (show s.losses = s.losses + 1 from h) (by omega),
        fun h => absurd h.2 (by omega)⟩,
      Or.inl rfl, fun h => absurd h.2 (by omega)⟩
  · rw [heq]
    exact ⟨⟨fun h => absurd (show s.losses = s.losses + 1 from h) (by omega),
        fun h => absurd h.2 (by omega)⟩,
      Or.inl rfl, fun h => absurd h.2 (by omega)⟩
  · rw [heq]
    exact ⟨⟨fun h => absurd (show s.losses = s.losses + 1 from h) (by omega),
        fun h => absurd h.2 (by omega)⟩,
      Or.inl rfl, fun h => absurd h.2 (by omega)⟩
  · rw [heq]
    exact ⟨⟨fun _ => ⟨hk, by omega⟩, fun _ => rfl⟩, Or.inr rfl, fun _ => rfl⟩
  · rw [heq]
    refine ⟨⟨fun h => absurd (show s.losses = s.losses + 1 from h) (by omega),
      fun h => ?_⟩, Or.inl rfl, fun h => ?_⟩
    · rw [hk] at h
      exact absurd h.1 (by decide)
    · rw [hk] at h
      exact absurd h.1 (by decide)
  · rw [heq]
    refine ⟨⟨fun h => absurd (show s.losses = s.losses + 1 from h) (by omega),
      fun h => ?_⟩, Or.inl rfl, fun h => ?_⟩
    · rw [hk] at h
      exact absurd h.1 (by decide)
    · rw [hk] at h
      exact absurd h.1 (by decide)

/-- The ordering conditions on the scenario parameters assumed by the
time-monotonicity claim: nonnegative first arrival and well-ordered,
nonnegative interval bounds. -/
def ParamsOrdered (P : Params) : Prop :=
  0 ≤ P.first_arrival ∧ 0 ≤ P.min_arrival ∧ P.min_arrival ≤ P.max_arrival ∧
    0 ≤ P.min_service ∧ P.min_service ≤ P.max_service

instance (P : Params) : Decidable (ParamsOrdered P) := by
  unfold ParamsOrdered
  exact inferInstance

lemma serviceTime_nonneg (P : Params) (hP : ParamsOrdered P) (x : ℚ)
    (hx : 0 ≤ x) : 0 ≤ serviceTime P x := by
  obtain ⟨_, _, _, h4, h5⟩ := hP
  unfold serviceTime
  have := mul_nonneg (by linarith : (0 : ℚ) ≤ P.max_service - P.min_service) hx
  linarith

lemma interarrival_nonneg (P : Params) (hP : ParamsOrdered P) (x : ℚ)
    (hx : 0 ≤ x) : 0 ≤ interarrival P x := by
  obtain ⟨_, h2, h3, _, _⟩ := hP
  unfold interarrival
  have := mul_nonneg (by linarith : (0 : ℚ) ≤ P.max_arrival - P.min_arrival) hx
  linarith

/-- The time-monotonicity invariant: the clock is nonnegative, no pending
event lies in the past, and all accrued dwell times are nonnegative. -/
def InvT (s : SimState) : Prop :=
  0 ≤ s.current_time ∧ (∀ e ∈ s.event_list, s.current_time ≤ e.time) ∧
    (∀ j : ℤ, 0 ≤ s.time_in_state j)

lemma InvT_step (P : Params) (hP : ParamsOrdered P) (s : SimState)
    (h : InvT s) (hne : s.event_list ≠ []) (hrc : 0 < s.gen.random_count) :
    InvT (stepSt (step P s)) ∧
      s.current_time ≤ (stepSt (step P s)).current_time := by
  obtain ⟨h0, hev, htis⟩ := h
  cases hpop : heappop s.event_list with
  | none => exact absurd ((heappop_eq_none _).mp hpop) hne
  | some p =>
    obtain ⟨e, rest⟩ := p
    have hct : s.current_time ≤ e.time := hev e (heappop_mem hpop)
    have hrest : ∀ x ∈ rest, e.time ≤ x.time := by
      intro x hx
      exact eventLe_time (heappop_min _ _ _ hpop x
        ((heappop_perm _ _ _ hpop).mem_iff.mpr (List.mem_cons_of_mem _ hx)))
    have htis' : ∀ j : ℤ, 0 ≤ tisAcc s e.time j := by
      intro j
      unfold tisAcc
      by_cases hj : j = s.state
      · rw [if_pos hj]
        have := htis j
        linarith
      · rw [if_neg hj]
        exact htis j
    have h0' : 0 ≤ e.time := le_trans h0 hct
    have hpushS : ∀ x ∈ heappush rest
        ⟨e.time + serviceTime P (draw1 s.gen), EventKind.departure⟩,
        e.time ≤ x.time := by
      intro x hx
      rcases List.mem_append.mp hx with hx | hx
      · exact hrest x hx
      · have : x = ⟨e.time + serviceTime P (draw1 s.gen), EventKind.departure⟩ := by
          simpa using hx
        rw [this]
        have := serviceTime_nonneg P hP (draw1 s.gen) (draw1_nonneg s.gen)
        show e.time ≤ e.time + serviceTime P (draw1 s.gen)
        linarith
    rcases step_cases P s e rest hpop hrc with
      ⟨hk, hc, hs, h1, heq⟩ | ⟨hk, hc, hs, h2, heq⟩ | ⟨hk, hc, hs, heq⟩ |
      ⟨hk, hc, heq⟩ | ⟨hk, hs, heq⟩ | ⟨hk, hs, heq⟩
    · rw [heq]
      exact ⟨⟨h0', hpushS, htis'⟩, hct⟩
    · rw [heq]
      refine ⟨⟨h0', ?_, htis'⟩, hct⟩
      intro x hx
      rcases List.mem_append.mp hx with hx | hx
      · exact hpushS x hx
      · have : x = ⟨e.time + interarrival P (draw1 (gnext s.gen)), EventKind.arrival⟩ := by
          simpa using hx
        rw [this]
        have := interarrival_nonneg P hP (draw1 (gnext s.gen)) (draw1_nonneg (gnext s.gen))
        show e.time ≤ e.time + interarrival P (draw1 (gnext s.gen))
        linarith
    · rw [heq]
      refine ⟨⟨h0', ?_, htis'⟩, hct⟩
      intro x hx
      rcases List.mem_append.mp hx with hx | hx
      · exact hrest x hx
      · have : x = ⟨e.time + interarrival P (draw1 s.gen), EventKind.arrival⟩ := by
          simpa using hx
        rw [this]
        have := interarrival_nonneg P hP (draw1 s.gen) (draw1_nonneg s.gen)
        show e.time ≤ e.time + interarrival P (draw1 s.gen)
        linarith
    · rw [heq]
      refine ⟨⟨h0', ?_, htis'⟩, hct⟩
      intro x hx
      rcases List.mem_append.mp hx with hx | hx
      · exact hrest x hx
      · have : x = ⟨e.time + interarrival P (draw1 s.gen), EventKind.arrival⟩ := by
          simpa using hx
        rw [this]
        have := interarrival_nonneg P hP (draw1 s.gen) (draw1_nonneg s.gen)
        show e.time ≤ e.time + interarrival P (draw1 s.gen)
        linarith
    · rw [heq]
      exact ⟨⟨h0', hpushS, htis'⟩, hct⟩
    · rw [heq]
      exact ⟨⟨h0', hrest, htis'⟩, hct⟩

lemma InvT_init (P : Params) (hP : ParamsOrdered P) : InvT (initState P) := by
  obtain ⟨h1, _, _, _, _⟩ := hP
  refine ⟨le_refl 0, ?_, fun j => le_refl 0⟩
  intro e he
  have : e = ⟨P.first_arrival, EventKind.arrival⟩ := by
    simpa [initState, heappush] using he
  rw [this]
  exact h1

lemma loop_guard (P : Params) (fuel : ℕ) (s : SimState)
    (hg : s.event_list = [] ∨ s.gen.random_count ≤ 0) :
    loop P fuel s = (s, 0) := by
  cases fuel with
  | zero => rfl
  | succ fuel =>
    unfold loop
    rw [if_pos hg]

lemma loop_succ_halt (P : Params) (fuel : ℕ) (s s' : SimState)
    (hg : ¬(s.event_list = [] ∨ s.gen.random_count ≤ 0))
    (hst : step P s = .halt s') :
    loop P (fuel + 1) s = (s', 1) := by
  conv_lhs => unfold loop
  rw [if_neg hg, hst]

lemma loop_succ_cont (P : Params) (fuel : ℕ) (s s' : SimState)
    (hg : ¬(s.event_list = [] ∨ s.gen.random_count ≤ 0))
    (hst : step P s = .cont s') :
    loop P (fuel + 1) s = ((loop P fuel s').1, (loop P fuel s').2 + 1) := by
  conv_lhs => unfold loop
  rw [if_neg hg, hst]

/-- Termination and event accounting for the loop: with fuel at least
`2 * random_count + length of the heap`, the loop exits by its own guard or
by a break on an exhausted draw (so the final state has an empty heap or a
spent budget), the budget never goes negative, and the number of processed
events is at most `2 * random_count` plus the pending departures. -/
lemma loop_halts (P : Params) :
    ∀ (fuel : ℕ) (s : SimState),
      0 ≤ s.gen.random_count →
      2 * s.gen.random_count.toNat + s.event_list.length ≤ fuel →
      (((loop P fuel s).1.event_list = [] ∨
          (loop P fuel s).1.gen.random_count ≤ 0) ∧
        0 ≤ (loop P fuel s).1.gen.random_count ∧
        (loop P fuel s).2 ≤ 2 * s.gen.random_count.toNat + countDep s.event_list) := by
  intro fuel
  induction fuel with
  | zero =>
    intro s h0 hm
    have hlen : s.event_list.length = 0 := by omega
    have hnil : s.event_list = [] := List.length_eq_zero.mp hlen
    exact ⟨Or.inl hnil, h0, Nat.zero_le _⟩
  | succ fuel ih =>
    intro s h0 hm
    by_cases hg : s.event_list = [] ∨ s.gen.random_count ≤ 0
    · rw [loop_guard P (fuel + 1) s hg]
      exact ⟨hg, h0, Nat.zero_le _⟩
    · have hgg := hg
      push_neg at hg
      obtain ⟨hne, hrcle⟩ := hg
      have hrc : 0 < s.gen.random_count := by omega
      cases hpop : heappop s.event_list with
      | none => exact absurd ((heappop_eq_none _).mp hpop) hne
      | some p =>
        obtain ⟨e, rest⟩ := p
        have hlen : s.event_list.length = rest.length + 1 := heappop_length hpop
        rcases step_cases P s e rest hpop hrc with
          ⟨hk, hc, hs, hr1, heq⟩ | ⟨hk, hc, hs, hr2, heq⟩ | ⟨hk, hc, hs, heq⟩ |
          ⟨hk, hc, heq⟩ | ⟨hk, hs, heq⟩ | ⟨hk, hs, heq⟩
        · have hst' : step P s = .halt (stepSt (step P s)) := by rw [heq, stepSt_halt]
          rw [loop_succ_halt P fuel s (stepSt (step P s)) hgg hst']
          refine ⟨Or.inr ?_, ?_, ?_⟩
          · rw [heq]
            show s.gen.random_count - 1 ≤ 0
            omega
          · rw [heq]
            show (0 : ℤ) ≤ s.gen.random_count - 1
            omega
          · show 1 ≤ 2 * s.gen.random_count.toNat + countDep s.event_list
            omega
        · have hcd := countDep_heappop_arr hpop hk
          have hst' : step P s = .cont (stepSt (step P s)) := by rw [heq, stepSt_cont]
          have hrcX : (stepSt (step P s)).gen.random_count =
              s.gen.random_count - 1 - 1 := by
            rw [heq]
            rfl
          have hlenX : (stepSt (step P s)).event_list.length = rest.length + 2 := by
            rw [heq]
            simp [heappush]
          have hcdX : countDep (stepSt (step P s)).event_list =
              countDep rest + 1 := by
            rw [heq]
            simp
          obtain ⟨i1, i2, i3⟩ := ih (stepSt (step P s))
            (by rw [hrcX]; omega) (by rw [hrcX, hlenX]; omega)
          rw [loop_succ_cont P fuel s (stepSt (step P s)) hgg hst']
          rw [hrcX, hcdX] at i3
          exact ⟨i1, i2, by omega⟩
        · have hcd := countDep_heappop_arr hpop hk
          have hst' : step P s = .cont (stepSt (step P s)) := by rw [heq, stepSt_cont]
          have hrcX : (stepSt (step P s)).gen.random_count =
              s.gen.random_count - 1 := by
            rw [heq]
            rfl
          have hlenX : (stepSt (step P s)).event_list.length = rest.length + 1 := by
            rw [heq]
            simp [heappush]
          have hcdX : countDep (stepSt (step P s)).event_list = countDep rest := by
            rw [heq]
            simp
          obtain ⟨i1, i2, i3⟩ := ih (stepSt (step P s))
            (by rw [hrcX]; omega) (by rw [hrcX, hlenX]; omega)
          rw [loop_succ_cont P fuel s (stepSt (step P s)) hgg hst']
          rw [hrcX, hcdX] at i3
          exact ⟨i1, i2, by omega⟩
        · have hcd := countDep_heappop_arr hpop hk
          have hst' : step P s = .cont (stepSt (step P s)) := by rw [heq, stepSt_cont]
          have hrcX : (stepSt (step P s)).gen.random_count =
              s.gen.random_count - 1 := by
            rw [heq]
            rfl
          have hlenX : (stepSt (step P s)).event_list.length = rest.length + 1 := by
            rw [heq]
            simp [heappush]
          have hcdX : countDep (stepSt (step P s)).event_list = countDep rest := by
            rw [heq]
            simp
          obtain ⟨i1, i2, i3⟩ := ih (stepSt (step P s))
            (by rw [hrcX]; omega) (by rw [hrcX, hlenX]; omega)
          rw [loop_succ_cont P fuel s (stepSt (step P s)) hgg hst']
          rw [hrcX, hcdX] at i3
          exact ⟨i1, i2, by omega⟩
        · have hcd := countDep_heappop_dep hpop hk
          have hst' : step P s = .cont (stepSt (step P s)) := by rw [heq, stepSt_cont]
          have hrcX : (stepSt (step P s)).gen.random_count =
              s.gen.random_count - 1 := by
            rw [heq]
            rfl
          have hlenX : (stepSt (step P s)).event_list.length = rest.length + 1 := by
            rw [heq]
            simp [heappush]
          have hcdX : countDep (stepSt (step P s)).event_list =
              countDep rest + 1 := by
            rw [heq]
            simp
          obtain ⟨i1, i2, i3⟩ := ih (stepSt (step P s))
            (by rw [hrcX]; omega) (by rw [hrcX, hlenX]; omega)
          rw [loop_succ_cont P fuel s (stepSt (step P s)) hgg hst']
          rw [hrcX, hcdX] at i3
          exact ⟨i1, i2, by omega⟩
        · have hcd := countDep_heappop_dep hpop hk
          have hst' : step P s = .cont (stepSt (step P s)) := by rw [heq, stepSt_cont]
          have hrcX : (stepSt (step P s)).gen.random_count =
              s.gen.random_count := by
            rw [heq]
            rfl
          have hlenX : (stepSt (step P s)).event_list.length = rest.length := by
            rw [heq]
            rfl
          have hcdX : countDep (stepSt (step P s)).event_list = countDep rest := by
            rw [heq]
            rfl
          obtain ⟨i1, i2, i3⟩ := ih (stepSt (step P s))
            (by rw [hrcX]; omega) (by rw [hrcX, hlenX]; omega)
          rw [loop_succ_cont P fuel s (stepSt (step P s)) hgg hst']
          rw [hrcX, hcdX] at i3
          exact ⟨i1, i2, by omega⟩

/-- Aggregator as the specification words it (for comparison with the
source's `probabilities_of`): the formula `t / clock * 100` for every entry,
and `0` exactly when `clock = 0`. -/
def probabilities_claim (tis : List ℚ) (clock : ℚ) : List ℚ :=
  if clock = 0 then tis.map (fun _ => 0)
  else tis.map (fun t => t / clock * 100)

/-- Aggregator as the specification words it (for comparison with the
source's `avg_population_of`): `sum(i * time_in_state[i] / clock)`, and `0`
exactly when `clock = 0`. -/
def avg_population_claim (tis : List ℚ) (clock : ℚ) : ℚ :=
  if clock = 0 then 0
  else ((List.range tis.length).map
    (fun (i : ℕ) => (i : ℚ) * tis.getD i 0 / clock)).sum

lemma probabilities_of_pos (tis : List ℚ) (clock : ℚ) (h : 0 < clock) :
    probabilities_of tis clock = tis.map (fun t => t / clock * 100) := by
  unfold probabilities_of
  apply List.map_congr_left
  intro t _
  rw [if_pos h]

lemma probabilities_of_nonpos (tis : List ℚ) (clock : ℚ) (h : clock ≤ 0) :
    probabilities_of tis clock = tis.map (fun _ => 0) := by
  unfold probabilities_of
  apply List.map_congr_left
  intro t _
  rw [if_neg (not_lt.mpr h)]

lemma avg_population_of_pos (tis : List ℚ) (clock : ℚ) (h : 0 < clock) :
    avg_population_of tis clock =
      ((List.range tis.length).map
        (fun (i : ℕ) => (i : ℚ) * (tis.getD i 0 / clock))).sum := by
  unfold avg_population_of
  rw [if_pos h]

lemma avg_population_of_nonpos (tis : List ℚ) (clock : ℚ) (h : clock ≤ 0) :
    avg_population_of tis clock = 0 := by
  unfold avg_population_of
  rw [if_neg (not_lt.mpr h)]

/-- With a nonpositive budget the loop guard fails immediately, so
`simulate_queue` returns the zero result rather than any error. -/
lemma simulate_queue_of_nonpos (P : Params) (h : P.num_randoms ≤ 0) :
    simulate_queue P =
      { simulation_time := 0
        time_in_state := List.replicate (P.capacity + 1) 0
        probabilities := List.replicate (P.capacity + 1) 0
        losses := 0
        avg_population := 0
        servers := P.servers
        capacity := P.capacity
        min_arrival := P.min_arrival
        max_arrival := P.max_arrival
        min_service := P.min_service
        max_service := P.max_service } := by
  have hfin : finalState P = initState P := by
    unfold finalState
    rw [loop_guard P _ _ (Or.inr h)]
  have htis : (List.range (P.capacity + 1)).map
      (fun (i : ℕ) => (initState P).time_in_state (i : ℤ)) =
      List.replicate (P.capacity + 1) (0 : ℚ) := by
    simp [initState, List.map_const']
  have hc0 : (initState P).current_time = 0 := rfl
  have hl0 : (initState P).losses = 0 := rfl
  simp only [simulate_queue]
  rw [hfin, htis, hc0, hl0]
  have hp : probabilities_of (List.replicate (P.capacity + 1) (0 : ℚ)) 0 =
      List.replicate (P.capacity + 1) 0 := by
    rw [probabilities_of_nonpos _ _ (le_refl 0)]
    simp
  have ha : avg_population_of (List.replicate (P.capacity + 1) (0 : ℚ)) 0 = 0 :=
    avg_population_of_nonpos _ _ (le_refl 0)
  rw [hp, ha]

/-- A small scenario used to witness the loop theorems. -/
def Pex : Params := ⟨1, 1, 2, 2, 5, 3, 5, 2, 12345⟩

/-- A scenario with budget one, used to witness the termination theorem. -/
def PexOne : Params := ⟨1, 5, 2, 2, 5, 3, 5, 1, 12345⟩

/-- A scenario with a negative budget, used to witness that invalid budgets
run silently. -/
def PexZero : Params := ⟨2, 3, 1, 1, 4, 2, 6, -5, 99⟩

/-- A zero-capacity scenario, used to witness the loss-counting theorem. -/
def PexCap0 : Params := ⟨1, 0, 2, 2, 5, 3, 5, 5, 1⟩

/-- A concrete loop state holding one pending arrival. -/
def Sex : SimState :=
  { gen := ⟨1, 5⟩
    current_time := 0
    state := 0
    losses := 0
    time_in_state := fun _ => 0
    event_list := [⟨2, .arrival⟩] }

/-- Claim C1, counterexample: called with the invalid budget
`num_randoms = 0`, `simulate_queue` is not rejected before a simulation step
with an InvalidParameters error — no validation exists in the code — and
instead returns a complete, ordinary result record. -/
theorem C1_counterexample :
    simulate_queue ⟨1, 5, 2, 2, 5, 3, 5, 0, 12345⟩ =
      { simulation_time := 0
        time_in_state := [0, 0, 0, 0, 0, 0]
        probabilities := [0, 0, 0, 0, 0, 0]
        losses := 0
        avg_population := 0
        servers := 1
        capacity := 5
        min_arrival := 2
        max_arrival := 5
        min_service := 3
        max_service := 5 } := by
  decide

/-- Claim C1, amended: `simulate_queue` performs no parameter validation;
with a nonpositive budget the event loop never runs and the engine silently
returns the zero result (zero simulated time, zero dwell times, zero losses)
instead of rejecting the call. -/
theorem C1_no_validation (P : Params) (h : P.num_randoms ≤ 0) :
    simulate_queue P =
      { simulation_time := 0
        time_in_state := List.replicate (P.capacity + 1) 0
        probabilities := List.replicate (P.capacity + 1) 0
        losses := 0
        avg_population := 0
        servers := P.servers
        capacity := P.capacity
        min_arrival := P.min_arrival
        max_arrival := P.max_arrival
        min_service := P.min_service
        max_service := P.max_service } :=
  simulate_queue_of_nonpos P h

/-- Witness for C1: the amended statement evaluated at a concrete scenario
with budget `-5`. -/
theorem C1_no_validation_witness :
    simulate_queue PexZero =
      { simulation_time := 0
        time_in_state := List.replicate (PexZero.capacity + 1) 0
        probabilities := List.replicate (PexZero.capacity + 1) 0
        losses := 0
        avg_population := 0
        servers := PexZero.servers
        capacity := PexZero.capacity
        min_arrival := PexZero.min_arrival
        max_arrival := PexZero.max_arrival
        min_service := PexZero.min_service
        max_service := PexZero.max_service } :=
  C1_no_validation PexZero (by decide)

/-- Claim C2, counterexample: with a departure scheduled first and an arrival
scheduled second at the same time, `heappop` returns the later-inserted
arrival (Python compares the kind strings, "arrival" < "departure"), so
equal-time ties are not broken by insertion order. -/
theorem C2_counterexample :
    heappop [(⟨5, .departure⟩ : Event), ⟨5, .arrival⟩] =
      some (⟨5, .arrival⟩, [⟨5, .departure⟩]) ∧
    (⟨5, .arrival⟩ : Event) ≠ (⟨5, .departure⟩ : Event) := by
  decide

/-- Claim C2, amended: `heappop` fails exactly on the empty heap, and
otherwise removes and returns a pending event that is minimal for Python's
tuple order on `(time, kind)` — smallest time, with equal-time ties broken
by the event kind (Arrival before Departure), not by insertion order. -/
theorem C2_pop_min (l : List Event) (e : Event) (rest : List Event) :
    (heappop l = none ↔ l = []) ∧
    (heappop l = some (e, rest) →
      e ∈ l ∧ l.Perm (e :: rest) ∧ ∀ x ∈ l, eventLe e x) :=
  ⟨heappop_eq_none l,
    fun h => ⟨heappop_mem h, heappop_perm l e rest h, heappop_min l e rest h⟩⟩

/-- Witness for C2: the amended statement evaluated on a one-event heap. -/
theorem C2_pop_min_witness :
    (⟨3, .arrival⟩ : Event) ∈ [(⟨3, .arrival⟩ : Event)] ∧
    ([(⟨3, .arrival⟩ : Event)]).Perm ((⟨3, .arrival⟩ : Event) :: []) ∧
    ∀ x ∈ [(⟨3, .arrival⟩ : Event)], eventLe ⟨3, .arrival⟩ x :=
  (C2_pop_min [⟨3, .arrival⟩] ⟨3, .arrival⟩ []).2 (by decide)

/-- Claim C3: after `reset_random (seed, budget)` with a positive budget,
exactly `budget` draws succeed and the next draw fails with exhaustion; each
successful draw advances the state by `state ← (a * state + c) % 2 ^ 32`,
returns `state / 2 ^ 32 ∈ [0, 1)` and decrements the budget — so the stream
is a pure function of `(seed, budget)` (the model is a function). -/
theorem C3_lcg (seed budget : ℤ) (hb : 0 < budget) :
    (∃ g', iterDraw budget.toNat (reset_random seed budget) = some g' ∧
        g'.random_count = 0 ∧ (next_random g').1 = none) ∧
    (∀ (g : GenState) (x : ℚ) (g' : GenState),
      next_random g = (some x, g') →
        g'.previous = (a * g.previous + c) % M ∧
        g'.random_count = g.random_count - 1 ∧
        x = (((a * g.previous + c) % M : ℤ) : ℚ) / (M : ℚ) ∧
        0 ≤ x ∧ x < 1) := by
  constructor
  · have hle : ((budget.toNat : ℤ)) ≤ (reset_random seed budget).random_count := by
      show (budget.toNat : ℤ) ≤ budget
      omega
    obtain ⟨g', hg1, hg2⟩ := iterDraw_of_le budget.toNat (reset_random seed budget) hle
    have hg0 : g'.random_count = 0 := by
      rw [hg2]
      show budget - (budget.toNat : ℤ) = 0
      omega
    refine ⟨g', hg1, hg0, ?_⟩
    rw [next_random_of_nonpos g' (by omega)]
  · intro g x g' h
    by_cases hrc : 0 < g.random_count
    · rw [next_random_of_pos g hrc] at h
      rw [Prod.mk.injEq] at h
      obtain ⟨hx, hg⟩ := h
      rw [Option.some.injEq] at hx
      subst hx
      subst hg
      exact ⟨rfl, rfl, rfl, draw1_nonneg g, draw1_lt_one g⟩
    · rw [next_random_of_nonpos g (by omega)] at h
      exact absurd (congrArg Prod.fst h) (by simp)

/-- Witness for C3: the exhaustion part evaluated at seed 1, budget 2. -/
theorem C3_lcg_witness :
    ∃ g', iterDraw (2 : ℤ).toNat (reset_random 1 2) = some g' ∧
      g'.random_count = 0 ∧ (next_random g').1 = none :=
  (C3_lcg 1 2 (by decide)).1

/-- Claim C4: for every completed run, the reported dwell times sum exactly
to the reported simulation time, and the simulation time is the clock at
which the loop stopped — the time of the last processed event; the trailing
interval after it is never accrued. -/
theorem C4_sum_eq_clock (P : Params) :
    (simulate_queue P).time_in_state.sum = (simulate_queue P).simulation_time ∧
    (simulate_queue P).simulation_time = (finalState P).current_time :=
  ⟨(GoodState_final P).2, rfl⟩

/-- Claim C5: the occupancy invariant `0 ≤ state ≤ capacity` holds at the
start of the run, is preserved by every guarded loop iteration (together
with the pending-departure bookkeeping of `InvD`), and therefore holds in
the state where the run stops. -/
theorem C5_occupancy (P : Params) :
    InvD P (initState P) ∧
    (∀ s : SimState, InvD P s → s.event_list ≠ [] → 0 < s.gen.random_count →
      InvD P (stepSt (step P s))) ∧
    0 ≤ (finalState P).state ∧ (finalState P).state ≤ (P.capacity : ℤ) :=
  ⟨InvD_init P, fun s h h1 h2 => InvD_step P s h h1 h2,
    (InvD_final P).1, (InvD_final P).2.1⟩

/-- Witness for C5: the invariant is preserved across one concrete step. -/
theorem C5_occupancy_witness : InvD Pex (stepSt (step Pex Sex)) :=
  (C5_occupancy Pex).2.1 Sex (by decide) (by decide) (by decide)

/-- Claim C6, counterexample: the aggregator zeroes its output whenever the
clock is not positive, not only when it is zero — at `clock = -1` the code
returns `0` where the claimed formula `t / clock * 100` does not. -/
theorem C6_counterexample :
    probabilities_of [(1 : ℚ)] (-1) ≠ probabilities_claim [(1 : ℚ)] (-1) ∧
    avg_population_of [(0 : ℚ), 1] (-1) ≠ avg_population_claim [(0 : ℚ), 1] (-1) := by
  constructor
  · intro hEq
    rw [probabilities_of_nonpos _ _ (by norm_num)] at hEq
    unfold probabilities_claim at hEq
    rw [if_neg (by norm_num)] at hEq
    norm_num at hEq
  · intro hEq
    rw [avg_population_of_nonpos _ _ (by norm_num)] at hEq
    unfold avg_population_claim at hEq
    rw [if_neg (by norm_num)] at hEq
    norm_num [List.range_succ] at hEq

/-- Claim C6, amended: the aggregator is a pure function of
`(time_in_state, clock)` computing `probabilities[i] = tis[i] / clock * 100`
and `avg_population = sum(i * tis[i] / clock)` whenever `clock > 0`, and `0`
for every entry whenever `clock ≤ 0` (not only at `clock = 0`). -/
theorem C6_aggregator (tis : List ℚ) (clock : ℚ) :
    (0 < clock →
      probabilities_of tis clock = tis.map (fun t => t / clock * 100) ∧
      avg_population_of tis clock =
        ((List.range tis.length).map
          (fun (i : ℕ) => (i : ℚ) * (tis.getD i 0 / clock))).sum) ∧
    (clock ≤ 0 →
      probabilities_of tis clock = tis.map (fun _ => 0) ∧
      avg_population_of tis clock = 0) :=
  ⟨fun h => ⟨probabilities_of_pos tis clock h, avg_population_of_pos tis clock h⟩,
    fun h => ⟨probabilities_of_nonpos tis clock h, avg_population_of_nonpos tis clock h⟩⟩

/-- Witness for C6: the amended statement evaluated at a positive clock. -/
theorem C6_aggregator_witness :
    probabilities_of [(1 : ℚ), 2] 2 = ([(1 : ℚ), 2]).map (fun t => t / 2 * 100) ∧
    avg_population_of [(1 : ℚ), 2] 2 =
      ((List.range ([(1 : ℚ), 2]).length).map
        (fun (i : ℕ) => (i : ℚ) * (([(1 : ℚ), 2]).getD i 0 / 2))).sum :=
  (C6_aggregator [1, 2] 2).1 (by decide)

/-- Claim C7: at any loop state with occupancy within capacity, processing
an event increments `losses` by exactly one precisely when the event is an
Arrival popped while `state = capacity`; `losses` never changes otherwise,
and a rejected arrival leaves the occupancy unchanged. -/
theorem C7_losses (P : Params) (s : SimState) (e : Event) (rest : List Event)
    (hpop : heappop s.event_list = some (e, rest))
    (hcap : s.state ≤ (P.capacity : ℤ)) (hrc : 0 < s.gen.random_count) :
    ((stepSt (step P s)).losses = s.losses + 1 ↔
      (e.kind = .arrival ∧ s.state = (P.capacity : ℤ))) ∧
    ((stepSt (step P s)).losses = s.losses ∨
      (stepSt (step P s)).losses = s.losses + 1) ∧
    ((e.kind = .arrival ∧ s.state = (P.capacity : ℤ)) →
      (stepSt (step P s)).state = s.state) :=
  losses_step P s e rest hpop hcap hrc

/-- Witness for C7: an arrival popped at full capacity (capacity zero). -/
theorem C7_losses_witness :
    ((stepSt (step PexCap0 Sex)).losses = Sex.losses + 1 ↔
      ((⟨2, .arrival⟩ : Event).kind = .arrival ∧
        Sex.state = (PexCap0.capacity : ℤ))) ∧
    ((stepSt (step PexCap0 Sex)).losses = Sex.losses ∨
      (stepSt (step PexCap0 Sex)).losses = Sex.losses + 1) ∧
    (((⟨2, .arrival⟩ : Event).kind = .arrival ∧
        Sex.state = (PexCap0.capacity : ℤ)) →
      (stepSt (step PexCap0 Sex)).state = Sex.state) :=
  C7_losses PexCap0 Sex ⟨2, .arrival⟩ [] (by decide) (by decide) (by decide)

/-- Claim C8: a draw attempted with no budget left fails and leaves the
generator state — both the LCG state and the remaining count — untouched
(the source raises before mutating any global). -/
theorem C8_exhaustion (g : GenState) (h : g.random_count ≤ 0) :
    next_random g = (none, g) :=
  next_random_of_nonpos g h

/-- Witness for C8: an exhausted generator at a concrete state. -/
theorem C8_exhaustion_witness : next_random ⟨7, 0⟩ = (none, (⟨7, 0⟩ : GenState)) :=
  C8_exhaustion ⟨7, 0⟩ (by decide)

/-- Claim C9: with a positive budget the run provably terminates within the
allotted fuel: the loop stops only with an empty heap or a spent budget, the
budget never goes negative (so at most `budget` draws succeed), and at most
`2 * budget` events are processed. -/
theorem C9_termination (P : Params) (h : 0 < P.num_randoms) :
    ((finalState P).event_list = [] ∨ (finalState P).gen.random_count ≤ 0) ∧
    0 ≤ (finalState P).gen.random_count ∧
    P.num_randoms - (finalState P).gen.random_count ≤ P.num_randoms ∧
    eventsProcessed P ≤ 2 * P.num_randoms.toNat := by
  have h0 : 0 ≤ (initState P).gen.random_count := by
    show (0 : ℤ) ≤ P.num_randoms
    omega
  have hm : 2 * (initState P).gen.random_count.toNat +
      (initState P).event_list.length ≤ fuelFor P := by
    show 2 * P.num_randoms.toNat + 1 ≤ 2 * P.num_randoms.toNat + 1
    exact le_refl _
  obtain ⟨i1, i2, i3⟩ := loop_halts P (fuelFor P) (initState P) h0 hm
  have i2' : 0 ≤ (finalState P).gen.random_count := i2
  have i3' : eventsProcessed P ≤ 2 * P.num_randoms.toNat + 0 := i3
  exact ⟨i1, i2', by omega, by omega⟩

/-- Witness for C9: termination and the event bound at budget one. -/
theorem C9_termination_witness :
    ((finalState PexOne).event_list = [] ∨
      (finalState PexOne).gen.random_count ≤ 0) ∧
    0 ≤ (finalState PexOne).gen.random_count ∧
    PexOne.num_randoms - (finalState PexOne).gen.random_count ≤ PexOne.num_randoms ∧
    eventsProcessed PexOne ≤ 2 * PexOne.num_randoms.toNat :=
  C9_termination PexOne (by decide)

/-- Claim C10: with a nonnegative first arrival and well-ordered nonnegative
interval bounds, the time-monotonicity invariant holds initially and is
preserved by every guarded iteration — each processed event's time is at
least the current clock, so the clock never decreases — and consequently
every accrued dwell time, every reported dwell-time entry and the reported
simulation time are nonnegative. -/
theorem C10_monotone (P : Params)
    (h1 : 0 ≤ P.first_arrival) (h2 : 0 ≤ P.min_arrival)
    (h3 : P.min_arrival ≤ P.max_arrival) (h4 : 0 ≤ P.min_service)
    (h5 : P.min_service ≤ P.max_service) :
    InvT (initState P) ∧
    (∀ s : SimState, InvT s → s.event_list ≠ [] → 0 < s.gen.random_count →
      InvT (stepSt (step P s)) ∧
        s.current_time ≤ (stepSt (step P s)).current_time) ∧
    (∀ j : ℤ, 0 ≤ (finalState P).time_in_state j) ∧
    (∀ t ∈ (simulate_queue P).time_in_state, 0 ≤ t) ∧
    0 ≤ (simulate_queue P).simulation_time := by
  have hP : ParamsOrdered P := ⟨h1, h2, h3, h4, h5⟩
  have hinit := InvT_init P hP
  have hfin : InvT (finalState P) :=
    loop_inv P InvT (fun s h hne hrc => (InvT_step P hP s h hne hrc).1)
      (fuelFor P) (initState P) hinit
  refine ⟨hinit, fun s h hne hrc => InvT_step P hP s h hne hrc, hfin.2.2, ?_, hfin.1⟩
  intro t ht
  simp only [simulate_queue] at ht
  obtain ⟨i, _, rfl⟩ := List.mem_map.mp ht
  exact hfin.2.2 (i : ℤ)

/-- Witness for C10: nonnegative reported simulation time at a concrete
scenario. -/
theorem C10_monotone_witness : 0 ≤ (simulate_queue Pex).simulation_time :=
  (C10_monotone Pex (by decide) (by decide) (by decide) (by decide)
    (by decide)).2.2.2.2

end FilaSimples
